import Mathlib

/-!
Verification of the data pipeline implemented in `generate_ip_csv.py`.

The development is a shallow embedding of the script:

* Addresses of a `w`-bit family are natural numbers below `2 ^ w`;
  `ipaddress.summarize_address_range` (used by `convert_iprange_to_cidr`,
  lines 17–45) is embedded as `summarize`, emitting `(base, prefixLen)` pairs.
* The aggregated IPv4 frame is a list of parsed CIDR rows (`Row4`); the string
  splits and joins in `expand_df` (lines 174–179 and 200–204) are the identity
  on this parsed representation, so they are not repeated in the embedding.
* pandas `sort_values` defaults to `kind='quicksort'`, which is not stable:
  it guarantees only some permutation of the rows sorted by the column, with
  the relative order of equal keys unspecified.  `IsSortValuesOutput` captures
  exactly that guarantee; the function `sort_values` below resolves the
  nondeterminism with a stable sort (`List.insertionSort`), one admissible
  outcome, and properties sensitive to tie order are stated against the
  nondeterministic `ExpandResult` instead.  A frame rebuilt from an empty
  record list (`pd.DataFrame([])`) has no columns, so sorting such a frame by
  a column name raises `KeyError`, which the model returns as an
  `Except.error`.
* pandas `drop_duplicates` keeps the first occurrence of each key; it is
  embedded as `dropDupKey` with an accumulator of already seen keys.
* `main`'s orchestration (lines 210–333) is embedded as `runMain`, taking the
  per-country adapter outputs as inputs and returning the exit code and the
  written CSV lines.
-/

/-- Python `ipaddress._count_righthand_zero_bits(n, fuel)`: the number of
low-order zero bits of `n`, capped at `fuel` (`fuel` for `n = 0`). -/
def ctz : Nat → Nat → Nat
  | 0, _ => 0
  | fuel + 1, n => if n % 2 = 1 then 0 else ctz fuel (n / 2) + 1

/-- The block size exponent chosen at each step of `summarize_address_range`:
`min(_count_righthand_zero_bits(first, w), (last - first + 1).bit_length() - 1)`. -/
def nbitsFor (w first last : Nat) : Nat :=
  min (ctz w first) (Nat.log 2 (last - first + 1))

/-- Shallow embedding of Python's `ipaddress.summarize_address_range` for a
`w`-bit address family: emits `(base, prefixLen)` pairs covering the inclusive
range `[first, last]`. -/
def summarize (w first last : Nat) : List (Nat × Nat) :=
  if h : first ≤ last then
    (first, w - nbitsFor w first last) :: summarize w (first + 2 ^ nbitsFor w first last) last
  else []
termination_by last + 1 - first
decreasing_by
  have h1 : 0 < 2 ^ nbitsFor w first last := Nat.pos_pow_of_pos _ (by omega)
  omega

/-- One row of the DBIP range table after the per-country filter of
`load_dbip_csv`: a validated start/end address pair plus country code. -/
structure RangeRow where
  range_start : Nat
  range_end : Nat
  country : String
deriving DecidableEq, Repr

/-- One dictionary appended to `cidr_list` in `convert_iprange_to_cidr`:
the Network CIDR (as parsed base and prefix length) and the Country. -/
structure CidrEntry where
  base : Nat
  plen : Nat
  country : String
deriving DecidableEq, Repr

/-- The blocks `summarize_address_range` yields for one input row
(`w = 128` for IPv6, `w = 32` for IPv4). -/
def blocksFor (ipv6 : Bool) (row : RangeRow) : List (Nat × Nat) :=
  summarize (if ipv6 then 128 else 32) row.range_start row.range_end

/-- `convert_iprange_to_cidr` (lines 17–45): for each row, append one entry per
block of `summarize_address_range(startip, endip)`, tagged with the row's
country. -/
def convert_iprange_to_cidr (df : List RangeRow) (ipv6 : Bool) : List CidrEntry :=
  df.flatMap (fun row => (blocksFor ipv6 row).map (fun bp => ⟨bp.1, bp.2, row.country⟩))

/-- One row of the aggregated IPv4 frame, in parsed form: the Network string
`"o1.o2.o3.o4/subnet"` plus the Country. -/
structure Row4 where
  o1 : Nat
  o2 : Nat
  o3 : Nat
  o4 : Nat
  subnet : Nat
  country : String
deriving DecidableEq, Repr

/-- The "IP" column produced by the split loop of `expand_df` (lines 174–179):
the dotted address without the subnet part. -/
def ipOf (r : Row4) : Nat × Nat × Nat × Nat :=
  (r.o1, r.o2, r.o3, r.o4)

/-- The generalization loop body of `expand_df` (lines 184–192): an entry with
prefix-length 32 has its fourth octet zeroed and its subnet set to 24; every
parsed IPv4 address contains ".", so the `"." in item["IP"]` conjunct holds. -/
def generalize (r : Row4) : Row4 :=
  if r.subnet = 32 then { r with o4 := 0, subnet := 24 } else r

/-- The pandas error raised when an operation names a column a frame lacks. -/
inductive PdError where
  | keyError : String → PdError
deriving DecidableEq, Repr

/-- Comparison by a key projection, the order `sort_values(col)` sorts by. -/
def keyLE {α β : Type} [LinearOrder β] (key : α → β) (a b : α) : Prop :=
  key a ≤ key b

instance {α β : Type} [LinearOrder β] (key : α → β) : DecidableRel (keyLE key) :=
  fun a b => inferInstanceAs (Decidable (key a ≤ key b))

instance {α β : Type} [LinearOrder β] (key : α → β) : IsTotal α (keyLE key) :=
  ⟨fun a b => le_total (key a) (key b)⟩

instance {α β : Type} [LinearOrder β] (key : α → β) : IsTrans α (keyLE key) :=
  ⟨fun _ _ _ hab hbc => le_trans hab hbc⟩

/-- Lexicographic comparison by two key projections; used to describe the
result of two consecutive stable sorts. -/
def keyLex {α β γ : Type} [LinearOrder β] [LinearOrder γ]
    (k1 : α → β) (k2 : α → γ) (a b : α) : Prop :=
  k1 a < k1 b ∨ (k1 a = k1 b ∧ k2 a ≤ k2 b)

instance {α β γ : Type} [LinearOrder β] [LinearOrder γ] (k1 : α → β) (k2 : α → γ) :
    DecidableRel (keyLex k1 k2) :=
  fun a b => inferInstanceAs (Decidable (k1 a < k1 b ∨ (k1 a = k1 b ∧ k2 a ≤ k2 b)))

instance {α β γ : Type} [LinearOrder β] [LinearOrder γ] (k1 : α → β) (k2 : α → γ) :
    IsTotal α (keyLex k1 k2) := by
  constructor
  intro a b
  rcases lt_trichotomy (k1 a) (k1 b) with h | h | h
  · exact Or.inl (Or.inl h)
  · rcases le_total (k2 a) (k2 b) with h2 | h2
    · exact Or.inl (Or.inr ⟨h, h2⟩)
    · exact Or.inr (Or.inr ⟨h.symm, h2⟩)
  · exact Or.inr (Or.inl h)

instance {α β γ : Type} [LinearOrder β] [LinearOrder γ] (k1 : α → β) (k2 : α → γ) :
    IsTrans α (keyLex k1 k2) := by
  constructor
  rintro a b c (hab | ⟨hab, hab2⟩) (hbc | ⟨hbc, hbc2⟩)
  · exact Or.inl (lt_trans hab hbc)
  · exact Or.inl (hbc ▸ hab)
  · exact Or.inl (hab ▸ hbc)
  · exact Or.inr ⟨hab.trans hbc, le_trans hab2 hbc2⟩

/-- `pd.DataFrame(record_list).sort_values(col)`: a frame rebuilt from an empty
record list has no columns, so naming `col` raises `KeyError`; otherwise the
rows are sorted by the column.  The default `kind='quicksort'` leaves the
order of equal keys unspecified; this function resolves that with a stable
sort, one admissible outcome (see `IsSortValuesOutput` for the guarantee the
unstable sort actually gives). -/
def sort_values {α : Type} (col : String) (r : α → α → Prop) [DecidableRel r]
    (l : List α) : Except PdError (List α) :=
  if l.isEmpty then .error (.keyError col) else .ok (l.insertionSort r)

/-- pandas `drop_duplicates(subset=...)` keep-first semantics with key
projection `key`; `seen` accumulates the keys already kept. -/
def dropDupKey {α β : Type} [DecidableEq β] (key : α → β) : List β → List α → List α
  | _, [] => []
  | seen, r :: rs =>
    if key r ∈ seen then dropDupKey key seen rs
    else r :: dropDupKey key (key r :: seen) rs

/-- pandas `drop_duplicates()` with no subset: the key is the whole row. -/
def drop_duplicates {α : Type} [DecidableEq α] (l : List α) : List α :=
  dropDupKey id [] l

/-- The `sort_values("Subnet", ascending=True)` order (line 197). -/
abbrev bySubnet : Row4 → Row4 → Prop :=
  keyLE Row4.subnet

/-- The `sort_values("Country")` order (line 205). -/
abbrev byCountry : Row4 → Row4 → Prop :=
  keyLE Row4.country

/-- `expand_df` (lines 162–207) on the parsed IPv4 frame:
split Network into IP and Subnet (identity on parsed rows, lines 174–179),
rewrite /32 entries to /24 (lines 181–192), rebuild a frame and sort it by
Subnet (lines 196–197), drop duplicate IPs keeping the first (line 198),
reassemble the CIDRs (identity, lines 200–204) and sort by Country (line 205). -/
def expand_df (df : List Row4) : Except PdError (List Row4) :=
  match sort_values "Subnet" bySubnet (df.map generalize) with
  | .error e => .error e
  | .ok tmp => sort_values "Country" byCountry (dropDupKey ipOf [] tmp)

/-- What `DataFrame.sort_values(col)` guarantees with its default unstable
`kind='quicksort'`: some permutation of the rows that is sorted by the
column; the relative order of rows with equal keys is unspecified. -/
def IsSortValuesOutput {α : Type} (r : α → α → Prop) (l out : List α) : Prop :=
  List.Perm out l ∧ List.Sorted r out

/-- Relational model of a successful `expand_df` run under the unstable
sorts (lines 197 and 205): some subnet-sorted permutation of the generalized
rows is deduplicated by IP — keeping the first occurrence in that sorted
order — and the result is some country-sorted permutation of the survivors.
The function `expand_df` (the stable resolution) produces one admissible
output. -/
def ExpandResult (df out : List Row4) : Prop :=
  df ≠ [] ∧ ∃ m, IsSortValuesOutput bySubnet (df.map generalize) m ∧
    IsSortValuesOutput byCountry (dropDupKey ipOf [] m) out

/-- A canonical `(Network, Country)` record, the unit of exchange of the
pipeline (used for IPv6 rows and for geo-block adapter output). -/
structure NetRow where
  network : String
  country : String
deriving DecidableEq, Repr

/-- One row of a `GeoLite2-Country-Blocks-IPv*.csv` table; the geoname columns
may be empty (pandas `NaN`), hence `Option`. -/
structure GeoBlockRow where
  network : String
  geoname_id : Option Nat
  registered_country_geoname_id : Option Nat
  represented_country_geoname_id : Option Nat
  is_anonymous_proxy : Nat
  is_satellite_provider : Nat
deriving DecidableEq, Repr

/-- `extract_geolite2_cidr` (lines 83–111): keep the rows whose `geoname_id`
and `registered_country_geoname_id` both equal `geoid`, drop the bookkeeping
columns, rename `network` to `Network` and stamp the ISO code as Country. -/
def extract_geolite2_cidr (ipblocks : List GeoBlockRow) (geoid : Nat)
    (iso_code : String) : List NetRow :=
  (ipblocks.filter fun r =>
    decide (r.geoname_id = some geoid ∧ r.registered_country_geoname_id = some geoid)).map
    fun r => { network := r.network, country := iso_code }

/-- The adapter outputs gathered for one country in `main`'s loop
(lines 228–304): DBIP and GeoLite2 results are always present; the
autonomous-system and manual per-country per-family CSVs are optional
(`none` when the file is absent); the ITO table is consulted only for IR. -/
structure CountrySources where
  iso : String
  dbip4 : List Row4
  geo4 : List Row4
  as4 : Option (List Row4)
  man4 : Option (List Row4)
  ito4 : List Row4
  dbip6 : List NetRow
  geo6 : List NetRow
  as6 : Option (List NetRow)
  man6 : Option (List NetRow)
deriving DecidableEq, Repr

/-- The `if Path(...).is_file()` guard around an optional source: a present
file's rows are concatenated, an absent file contributes nothing. -/
def optConcat {α : Type} (acc : List α) : Option (List α) → List α
  | some l => acc ++ l
  | none => acc

/-- IPv4 aggregation for one country (loop body, lines 228–304). -/
def aggCountry4 (acc : List Row4) (c : CountrySources) : List Row4 :=
  let a := optConcat (optConcat (acc ++ c.dbip4 ++ c.geo4) c.as4) c.man4
  if c.iso = "IR" then a ++ c.ito4 else a

/-- IPv6 aggregation for one country (loop body, lines 228–295). -/
def aggCountry6 (acc : List NetRow) (c : CountrySources) : List NetRow :=
  optConcat (optConcat (acc ++ c.dbip6 ++ c.geo6) c.as6) c.man6

/-- The Network column as written to the CSV for a parsed IPv4 row. -/
def net4String (r : Row4) : String :=
  toString r.o1 ++ "." ++ toString r.o2 ++ "." ++ toString r.o3 ++ "." ++
    toString r.o4 ++ "/" ++ toString r.subnet

/-- One CSV data line for an IPv4 row: Network first, then Country. -/
def csvLine4 (r : Row4) : String :=
  net4String r ++ "," ++ r.country

/-- One CSV data line for a `(Network, Country)` record. -/
def csvLine6 (r : NetRow) : String :=
  r.network ++ "," ++ r.country

/-- Observable outcome of a run of `main`: the process exit code, whether the
sources were read, and the lines of `agg_cidrs.csv` (`none` if not written). -/
structure RunResult where
  exitCode : Nat
  sourcesRead : Bool
  output : Option (List String)
deriving DecidableEq, Repr

/-- `main` (lines 210–333): if the data directory exists, aggregate every
country's sources, drop exact duplicate rows from both families (lines
311–312), expand the IPv4 set (line 314), concatenate IPv4 then IPv6 and
write the CSV with a header row and no index (lines 322–330); otherwise print
a message and `exit(0)` without reading or writing anything (lines 331–333). -/
def runMain (dataDirExists : Bool) (countries : List CountrySources) :
    Except PdError RunResult :=
  if dataDirExists then
    match expand_df (drop_duplicates (countries.foldl aggCountry4 [])) with
    | .error e => .error e
    | .ok expanded =>
      .ok { exitCode := 0, sourcesRead := true,
            output := some ("Network,Country" ::
              (expanded.map csvLine4 ++
                (drop_duplicates (countries.foldl aggCountry6 [])).map csvLine6)) }
  else
    .ok { exitCode := 0, sourcesRead := false, output := none }

/-- Replace each absent optional per-country file by a present-but-empty one;
used to state that absence behaves exactly like an empty contribution. -/
def fillOpts (c : CountrySources) : CountrySources :=
  { c with
    as4 := some (c.as4.getD []), man4 := some (c.man4.getD []),
    as6 := some (c.as6.getD []), man6 := some (c.man6.getD []) }

/-! ### Helper lemmas on `ctz`, `nbitsFor` and `summarize` -/

theorem ctz_zero (fuel : Nat) : ctz fuel 0 = fuel := by
  induction fuel with
  | zero => rfl
  | succ f ih => simp [ctz, ih]

theorem ctz_le (fuel n : Nat) : ctz fuel n ≤ fuel := by
  induction fuel generalizing n with
  | zero => simp [ctz]
  | succ f ih =>
    simp only [ctz]
    split
    · omega
    · have := ih (n / 2); omega

theorem pow_ctz_dvd (fuel n : Nat) : 2 ^ ctz fuel n ∣ n := by
  induction fuel generalizing n with
  | zero => simp [ctz]
  | succ f ih =>
    simp only [ctz]
    split
    · simp
    · rename_i h
      have h2 : n % 2 = 0 := by omega
      obtain ⟨m, hm⟩ := ih (n / 2)
      refine ⟨m, ?_⟩
      rw [pow_succ]
      calc n = 2 * (n / 2) := by omega
        _ = 2 * (2 ^ ctz f (n / 2) * m) := by rw [← hm]
        _ = 2 ^ ctz f (n / 2) * 2 * m := by ring

theorem le_ctz_of_pow_dvd (fuel n k : Nat) (hn : n ≠ 0) (hlt : n < 2 ^ fuel)
    (hdvd : 2 ^ k ∣ n) : k ≤ ctz fuel n := by
  induction fuel generalizing n k with
  | zero => simp at hlt; omega
  | succ f ih =>
    simp only [ctz]
    split
    · rename_i hodd
      by_contra hk
      have h1 : 1 ≤ k := by omega
      have : 2 ∣ n := dvd_trans (by simpa using pow_dvd_pow 2 h1) hdvd
      omega
    · rename_i heven
      have h2 : n % 2 = 0 := by omega
      match k with
      | 0 => omega
      | k + 1 =>
        have hd : 2 ^ k ∣ n / 2 := by
          have hn2 : n = 2 * (n / 2) := by omega
          rw [hn2, pow_succ, mul_comm (2 ^ k) 2] at hdvd
          exact (Nat.mul_dvd_mul_iff_left (by omega : 0 < 2)).mp (hn2 ▸ hdvd)
        have := ih (n / 2) k (by omega) (by omega) hd
        omega

theorem summarize_nil (w first last : Nat) (h : ¬ first ≤ last) :
    summarize w first last = [] := by
  unfold summarize
  simp [h]

theorem summarize_cons (w first last : Nat) (h : first ≤ last) :
    summarize w first last =
      (first, w - nbitsFor w first last) ::
        summarize w (first + 2 ^ nbitsFor w first last) last := by
  conv_lhs => unfold summarize
  simp [h]

theorem nbitsFor_le_w (w f l : Nat) : nbitsFor w f l ≤ w :=
  le_trans (min_le_left _ _) (ctz_le w f)

theorem pow_nbitsFor_dvd (w f l : Nat) : 2 ^ nbitsFor w f l ∣ f :=
  dvd_trans (pow_dvd_pow 2 (min_le_left _ _)) (pow_ctz_dvd w f)

theorem pow_nbitsFor_le (w f l : Nat) (h : f ≤ l) : 2 ^ nbitsFor w f l ≤ l - f + 1 := by
  have h1 : 2 ^ nbitsFor w f l ≤ 2 ^ Nat.log 2 (l - f + 1) :=
    Nat.pow_le_pow_right (by omega) (min_le_right _ _)
  have h2 : 2 ^ Nat.log 2 (l - f + 1) ≤ l - f + 1 :=
    Nat.pow_log_le_self 2 (by omega)
  omega

theorem nbitsFor_greatest (w f l k : Nat) (hfl : f ≤ l) (hl : l < 2 ^ w)
    (hdvd : 2 ^ k ∣ f) (hle : f + (2 ^ k - 1) ≤ l) : k ≤ nbitsFor w f l := by
  have hk1 : 0 < 2 ^ k := Nat.pos_pow_of_pos _ (by omega)
  have hsz : 2 ^ k ≤ l - f + 1 := by omega
  have hlog : k ≤ Nat.log 2 (l - f + 1) :=
    (Nat.pow_le_iff_le_log (by omega) (by omega)).mp hsz
  have hctz : k ≤ ctz w f := by
    rcases Nat.eq_zero_or_pos f with hf | hf
    · subst hf
      rw [ctz_zero]
      have : 2 ^ k ≤ 2 ^ w := by omega
      exact (Nat.pow_le_pow_iff_right (by omega)).mp this
    · exact le_ctz_of_pow_dvd w f k (by omega) (by omega) hdvd
  exact le_min hctz hlog

theorem summarize_covers (w l : Nat) (hl : l < 2 ^ w) :
    ∀ f a, ((∃ bp ∈ summarize w f l, bp.1 ≤ a ∧ a ≤ bp.1 + (2 ^ (w - bp.2) - 1)) ↔
      (f ≤ a ∧ a ≤ l)) := by
  suffices H : ∀ n f, l + 1 - f ≤ n → ∀ a,
      ((∃ bp ∈ summarize w f l, bp.1 ≤ a ∧ a ≤ bp.1 + (2 ^ (w - bp.2) - 1)) ↔
        (f ≤ a ∧ a ≤ l)) by
    intro f a
    exact H (l + 1 - f) f (le_refl _) a
  intro n
  induction n with
  | zero =>
    intro f hf a
    have hgt : ¬ f ≤ l := by omega
    rw [summarize_nil w f l hgt]
    constructor
    · rintro ⟨_, h, _⟩; exact absurd h (List.not_mem_nil _)
    · intro h; omega
  | succ n ih =>
    intro f hf a
    by_cases hfl : f ≤ l
    · rw [summarize_cons w f l hfl]
      have hnb : w - (w - nbitsFor w f l) = nbitsFor w f l :=
        Nat.sub_sub_self (nbitsFor_le_w w f l)
      have hpos : 0 < 2 ^ nbitsFor w f l := Nat.pos_pow_of_pos _ (by omega)
      have hsz : 2 ^ nbitsFor w f l ≤ l - f + 1 := pow_nbitsFor_le w f l hfl
      have hih := ih (f + 2 ^ nbitsFor w f l) (by omega)
      constructor
      · rintro ⟨bp, hbp, h1, h2⟩
        rcases List.mem_cons.mp hbp with heq | hmem
        · subst heq
          simp only [hnb] at h2
          exact ⟨h1, by omega⟩
        · have := (hih a).mp ⟨bp, hmem, h1, h2⟩
          omega
      · rintro ⟨h1, h2⟩
        by_cases ha : a ≤ f + (2 ^ nbitsFor w f l - 1)
        · exact ⟨(f, w - nbitsFor w f l), List.mem_cons_self _ _, h1, by rw [hnb]; omega⟩
        · obtain ⟨bp, hbp, hb1, hb2⟩ := (hih a).mpr ⟨by omega, h2⟩
          exact ⟨bp, List.mem_cons_of_mem _ hbp, hb1, hb2⟩
    · rw [summarize_nil w f l hfl]
      constructor
      · rintro ⟨_, h, _⟩; exact absurd h (List.not_mem_nil _)
      · intro h; omega

theorem summarize_block_range (w l f : Nat) (hl : l < 2 ^ w) :
    ∀ bp ∈ summarize w f l, f ≤ bp.1 ∧ bp.1 + (2 ^ (w - bp.2) - 1) ≤ l := by
  intro bp hbp
  have h1 := (summarize_covers w l hl f bp.1).mp ⟨bp, hbp, le_refl _, Nat.le_add_right _ _⟩
  have h2 := (summarize_covers w l hl f (bp.1 + (2 ^ (w - bp.2) - 1))).mp
    ⟨bp, hbp, Nat.le_add_right _ _, le_refl _⟩
  exact ⟨h1.1, h2.2⟩

theorem summarize_pairwise (w l : Nat) (hl : l < 2 ^ w) :
    ∀ f, (summarize w f l).Pairwise
      (fun bp cq => bp.1 + (2 ^ (w - bp.2) - 1) < cq.1) := by
  suffices H : ∀ n f, l + 1 - f ≤ n → (summarize w f l).Pairwise
      (fun bp cq => bp.1 + (2 ^ (w - bp.2) - 1) < cq.1) by
    intro f
    exact H (l + 1 - f) f (le_refl _)
  intro n
  induction n with
  | zero =>
    intro f hf
    rw [summarize_nil w f l (by omega)]
    exact List.Pairwise.nil
  | succ n ih =>
    intro f hf
    by_cases hfl : f ≤ l
    · rw [summarize_cons w f l hfl]
      have hnb : w - (w - nbitsFor w f l) = nbitsFor w f l :=
        Nat.sub_sub_self (nbitsFor_le_w w f l)
      have hpos : 0 < 2 ^ nbitsFor w f l := Nat.pos_pow_of_pos _ (by omega)
      refine List.Pairwise.cons ?_ (ih (f + 2 ^ nbitsFor w f l) (by omega))
      intro cq hcq
      have := summarize_block_range w l (f + 2 ^ nbitsFor w f l) hl cq hcq
      simp only [hnb]
      omega
    · rw [summarize_nil w f l hfl]
      exact List.Pairwise.nil

/-! ### Helper lemmas on `dropDupKey` (pandas `drop_duplicates`) -/

theorem dropDupKey_sublist {α β : Type} [DecidableEq β] (key : α → β) :
    ∀ (seen : List β) (l : List α), List.Sublist (dropDupKey key seen l) l := by
  intro seen l
  induction l generalizing seen with
  | nil => simp [dropDupKey]
  | cons r rs ih =>
    simp only [dropDupKey]
    split
    · exact List.Sublist.cons r (ih seen)
    · exact List.Sublist.cons₂ r (ih (key r :: seen))

theorem mem_dropDupKey_not_seen {α β : Type} [DecidableEq β] (key : α → β) :
    ∀ (seen : List β) (l : List α) (x : α), x ∈ dropDupKey key seen l → key x ∉ seen := by
  intro seen l
  induction l generalizing seen with
  | nil => simp [dropDupKey]
  | cons r rs ih =>
    intro x hx
    simp only [dropDupKey] at hx
    split at hx
    · exact ih seen x hx
    · rename_i hr
      rcases List.mem_cons.mp hx with heq | hmem
      · subst heq; exact hr
      · have := ih (key r :: seen) x hmem
        intro hc
        exact this (List.mem_cons_of_mem _ hc)

theorem dropDupKey_keys_nodup {α β : Type} [DecidableEq β] (key : α → β) :
    ∀ (seen : List β) (l : List α), ((dropDupKey key seen l).map key).Nodup := by
  intro seen l
  induction l generalizing seen with
  | nil => simp [dropDupKey]
  | cons r rs ih =>
    simp only [dropDupKey]
    split
    · exact ih seen
    · rw [List.map_cons, List.nodup_cons]
      refine ⟨?_, ih (key r :: seen)⟩
      intro hc
      obtain ⟨x, hx, hkx⟩ := List.mem_map.mp hc
      exact mem_dropDupKey_not_seen key _ rs x hx (hkx ▸ List.mem_cons_self _ _)

theorem dropDupKey_keys_mem {α β : Type} [DecidableEq β] (key : α → β) :
    ∀ (seen : List β) (l : List α) (k : β), k ∈ l.map key → k ∉ seen →
      k ∈ (dropDupKey key seen l).map key := by
  intro seen l
  induction l generalizing seen with
  | nil => simp
  | cons r rs ih =>
    intro k hk hks
    simp only [dropDupKey]
    split
    · rename_i hr
      rcases List.mem_map.mp hk with ⟨x, hx, hkx⟩
      rcases List.mem_cons.mp hx with heq | hmem
      · subst heq; subst hkx; exact absurd hr hks
      · exact ih seen k (List.mem_map.mpr ⟨x, hmem, hkx⟩) hks
    · rename_i hr
      by_cases hkr : k = key r
      · subst hkr
        exact List.mem_map.mpr ⟨r, List.mem_cons_self _ _, rfl⟩
      · rcases List.mem_map.mp hk with ⟨x, hx, hkx⟩
        rcases List.mem_cons.mp hx with heq | hmem
        · subst heq; exact absurd hkx.symm hkr
        · rw [List.map_cons]
          refine List.mem_cons_of_mem _
            (ih (key r :: seen) k (List.mem_map.mpr ⟨x, hmem, hkx⟩) ?_)
          intro hc
          rcases List.mem_cons.mp hc with h1 | h1
          · exact hkr h1
          · exact hks h1

theorem mem_dropDupKey_iff {α β : Type} [DecidableEq β] (key : α → β) :
    ∀ (seen : List β) (l : List α) (x : α),
      x ∈ dropDupKey key seen l ↔
        key x ∉ seen ∧ l.find? (fun y => decide (key y = key x)) = some x := by
  intro seen l
  induction l generalizing seen with
  | nil => simp [dropDupKey]
  | cons r rs ih =>
    intro x
    simp only [dropDupKey]
    by_cases hk : key r = key x
    · rw [List.find?_cons_of_pos _ (by simpa using hk)]
      split
      · rename_i hseen
        constructor
        · intro hx
          have := mem_dropDupKey_not_seen key seen rs x hx
          exact absurd (hk ▸ hseen) this
        · rintro ⟨hns, heq⟩
          have : r = x := by simpa using heq
          exact absurd (hk ▸ hseen) (this ▸ hns ∘ (hk ▸ id))
      · rename_i hseen
        constructor
        · intro hx
          rcases List.mem_cons.mp hx with heq | hmem
          · exact ⟨hk ▸ heq ▸ hseen, by rw [heq]⟩
          · have := mem_dropDupKey_not_seen key (key r :: seen) rs x hmem
            exact absurd (hk ▸ List.mem_cons_self _ _) this
        · rintro ⟨hns, heq⟩
          have : r = x := by simpa using heq
          exact this ▸ List.mem_cons_self _ _
    · rw [List.find?_cons_of_neg _ (by simpa using hk)]
      split
      · rename_i hseen
        exact ih seen x
      · rename_i hseen
        constructor
        · intro hx
          rcases List.mem_cons.mp hx with heq | hmem
          · exact absurd (heq ▸ rfl) hk
          · have := (ih (key r :: seen) x).mp hmem
            exact ⟨fun hc => this.1 (List.mem_cons_of_mem _ hc), this.2⟩
        · rintro ⟨hns, heq⟩
          refine List.mem_cons_of_mem _ ((ih (key r :: seen) x).mpr ⟨?_, heq⟩)
          intro hc
          rcases List.mem_cons.mp hc with h1 | h1
          · exact hk h1.symm
          · exact hns h1

theorem dropDupKey_eq_self {α β : Type} [DecidableEq β] (key : α → β) :
    ∀ (seen : List β) (l : List α), (l.map key).Nodup → (∀ x ∈ l, key x ∉ seen) →
      dropDupKey key seen l = l := by
  intro seen l
  induction l generalizing seen with
  | nil => simp [dropDupKey]
  | cons r rs ih =>
    intro hnd hns
    simp only [dropDupKey]
    rw [if_neg (hns r (List.mem_cons_self _ _))]
    congr 1
    rw [List.map_cons, List.nodup_cons] at hnd
    refine ih (key r :: seen) hnd.2 ?_
    intro x hx hc
    rcases List.mem_cons.mp hc with h1 | h1
    · exact hnd.1 (h1 ▸ List.mem_map.mpr ⟨x, hx, rfl⟩)
    · exact hns x (List.mem_cons_of_mem _ hx) h1

theorem dropDupKey_ne_nil {α β : Type} [DecidableEq β] (key : α → β)
    (l : List α) (hl : l ≠ []) : dropDupKey key [] l ≠ [] := by
  cases l with
  | nil => exact absurd rfl hl
  | cons r rs => simp [dropDupKey]

theorem map_key_nodup_inj {α β : Type} (key : α → β) :
    ∀ (l : List α), (l.map key).Nodup → ∀ x ∈ l, ∀ y ∈ l, key x = key y → x = y := by
  intro l
  induction l with
  | nil => simp
  | cons r rs ih =>
    intro hnd x hx y hy hkey
    rw [List.map_cons, List.nodup_cons] at hnd
    rcases List.mem_cons.mp hx with hx1 | hx1 <;> rcases List.mem_cons.mp hy with hy1 | hy1
    · rw [hx1, hy1]
    · subst hx1
      have hym : key y ∈ List.map key rs := List.mem_map.mpr ⟨y, hy1, rfl⟩
      rw [← hkey] at hym
      exact absurd hym hnd.1
    · subst hy1
      have hxm : key x ∈ List.map key rs := List.mem_map.mpr ⟨x, hx1, rfl⟩
      rw [hkey] at hxm
      exact absurd hxm hnd.1
    · exact ih hnd.2 x hx1 y hy1 hkey


/-! ### Stability lemmas for the modelled `sort_values` -/

theorem find?_eq_filter_head {α : Type} (p : α → Bool) :
    ∀ l : List α, l.find? p = (l.filter p).head? := by
  intro l
  induction l with
  | nil => rfl
  | cons a t ih =>
    by_cases h : p a
    · rw [List.find?_cons_of_pos _ h, List.filter_cons_of_pos h, List.head?_cons]
    · rw [List.find?_cons_of_neg _ h, List.filter_cons_of_neg h, ih]

theorem filter_ext {α : Type} (p q : α → Bool) (h : ∀ x, p x = q x) (l : List α) :
    l.filter p = l.filter q :=
  List.filter_congr (fun x _ => h x)

theorem filter_comm_decide {α : Type} (p q : α → Bool) (l : List α) :
    (l.filter p).filter q = (l.filter q).filter p := by
  rw [List.filter_filter, List.filter_filter]
  apply List.filter_congr
  intro x _
  rw [Bool.and_comm]

theorem filter_orderedInsert_class {α β : Type} [LinearOrder β] (key : α → β)
    (p : α → Bool) (hp : ∀ x y, p x = true → p y = true → key x = key y) (a : α) :
    ∀ l : List α, (List.orderedInsert (keyLE key) a l).filter p =
      if p a then a :: l.filter p else l.filter p := by
  intro l
  induction l with
  | nil =>
    by_cases h : p a <;> simp [List.orderedInsert, List.filter_cons, h]
  | cons b t ih =>
    simp only [List.orderedInsert]
    by_cases hab : keyLE key a b
    · rw [if_pos hab]
      by_cases ha : p a <;> by_cases hb : p b <;> simp [List.filter_cons, ha, hb]
    · rw [if_neg hab]
      by_cases ha : p a
      · by_cases hb : p b
        · exact absurd (show keyLE key a b from le_of_eq (hp a b ha hb)) hab
        · simp [List.filter_cons, ha, hb, ih]
      · by_cases hb : p b <;> simp [List.filter_cons, ha, hb, ih]

theorem filter_insertionSort_class {α β : Type} [LinearOrder β] (key : α → β)
    (p : α → Bool) (hp : ∀ x y, p x = true → p y = true → key x = key y) :
    ∀ l : List α, (List.insertionSort (keyLE key) l).filter p = l.filter p := by
  intro l
  induction l with
  | nil => rfl
  | cons a t ih =>
    simp only [List.insertionSort]
    rw [filter_orderedInsert_class key p hp, ih]
    by_cases h : p a <;> simp [List.filter_cons, h]

theorem bool_eq_of_iff {a b : Bool} (h : a = true ↔ b = true) : a = b := by
  cases a <;> cases b <;> simp_all

theorem sorted_eq_of_fibers_eq {α β : Type} [LinearOrder β] (key : α → β) :
    ∀ (l₁ l₂ : List α), List.Sorted (keyLE key) l₁ → List.Sorted (keyLE key) l₂ →
      (∀ (k : β) (p : α → Bool), (∀ x, p x = true ↔ key x = k) →
        l₁.filter p = l₂.filter p) →
      l₁ = l₂ := by
  intro l₁
  induction l₁ with
  | nil =>
    intro l₂ _ _ hfib
    cases l₂ with
    | nil => rfl
    | cons b t =>
      have h := hfib (key b) (fun x => decide (key x = key b)) (fun x => by simp)
      rw [List.filter_nil, List.filter_cons_of_pos (by simp)] at h
      exact absurd h (by simp)
  | cons a t₁ ih =>
    intro l₂ hs₁ hs₂ hfib
    cases l₂ with
    | nil =>
      have h := hfib (key a) (fun x => decide (key x = key a)) (fun x => by simp)
      rw [List.filter_nil, List.filter_cons_of_pos (by simp)] at h
      exact absurd h (by simp)
    | cons b t₂ =>
      have hkeq : key a = key b := by
        have h1 : a ∈ (b :: t₂).filter (fun x => decide (key x = key a)) := by
          rw [← hfib (key a) (fun x => decide (key x = key a)) (fun x => by simp)]
          exact List.mem_filter.mpr ⟨List.mem_cons_self _ _, by simp⟩
        have h2 : b ∈ (a :: t₁).filter (fun x => decide (key x = key b)) := by
          rw [hfib (key b) (fun x => decide (key x = key b)) (fun x => by simp)]
          exact List.mem_filter.mpr ⟨List.mem_cons_self _ _, by simp⟩
        have hba : key b ≤ key a := by
          rcases List.mem_cons.mp (List.mem_filter.mp h1).1 with h | h
          · rw [h]
          · exact List.rel_of_sorted_cons hs₂ a h
        have hab : key a ≤ key b := by
          rcases List.mem_cons.mp (List.mem_filter.mp h2).1 with h | h
          · rw [h]
          · exact List.rel_of_sorted_cons hs₁ b h
        exact le_antisymm hab hba
      have hf := hfib (key a) (fun x => decide (key x = key a)) (fun x => by simp)
      rw [List.filter_cons_of_pos (by simp), List.filter_cons_of_pos (by simp [hkeq])] at hf
      have hhead : a = b := (List.cons.injEq _ _ _ _ ▸ hf).1
      have htail₁ : t₁.filter (fun x => decide (key x = key a)) =
          t₂.filter (fun x => decide (key x = key a)) := (List.cons.injEq _ _ _ _ ▸ hf).2
      have htails : t₁ = t₂ := by
        refine ih t₂ hs₁.of_cons hs₂.of_cons ?_
        intro k p hp
        by_cases hk : k = key a
        · have hpe : ∀ x, p x = decide (key x = key a) :=
            fun x => bool_eq_of_iff ((hp x).trans (by rw [hk]; simp))
          rw [filter_ext p (fun x => decide (key x = key a)) hpe t₁,
            filter_ext p (fun x => decide (key x = key a)) hpe t₂]
          exact htail₁
        · have hpa : ¬ p a = true := fun hc => hk (((hp a).mp hc).symm ▸ rfl)
          have hpb : ¬ p b = true := fun hc => hk (hkeq ▸ ((hp b).mp hc).symm ▸ rfl)
          have h := hfib k p hp
          rw [List.filter_cons_of_neg hpa, List.filter_cons_of_neg hpb] at h
          exact h
      rw [hhead, htails]

theorem orderedInsert_congr {α : Type} (r₁ r₂ : α → α → Prop)
    [DecidableRel r₁] [DecidableRel r₂] (a : α) :
    ∀ l : List α, (∀ b ∈ l, r₁ a b ↔ r₂ a b) →
      List.orderedInsert r₁ a l = List.orderedInsert r₂ a l := by
  intro l
  induction l with
  | nil => intro _; rfl
  | cons b t ih =>
    intro h
    simp only [List.orderedInsert]
    by_cases h1 : r₁ a b
    · rw [if_pos h1, if_pos ((h b (List.mem_cons_self _ _)).mp h1)]
    · rw [if_neg h1, if_neg (fun h2 => h1 ((h b (List.mem_cons_self _ _)).mpr h2))]
      rw [ih (fun c hc => h c (List.mem_cons_of_mem _ hc))]

theorem insertionSort_keyLE_eq_keyLex {α β γ : Type} [LinearOrder β] [LinearOrder γ]
    (k1 : α → β) (k2 : α → γ) :
    ∀ l : List α, List.Sorted (keyLE k2) l →
      List.insertionSort (keyLE k1) l = List.insertionSort (keyLex k1 k2) l := by
  intro l
  induction l with
  | nil => intro _; rfl
  | cons a t ih =>
    intro hs
    simp only [List.insertionSort]
    rw [ih hs.of_cons]
    refine orderedInsert_congr _ _ a _ ?_
    intro b hb
    have hbt : b ∈ t := (List.mem_insertionSort _).mp hb
    have h2 : k2 a ≤ k2 b := List.rel_of_sorted_cons hs b hbt
    constructor
    · intro h1
      rcases lt_or_eq_of_le (show k1 a ≤ k1 b from h1) with h | h
      · exact Or.inl h
      · exact Or.inr ⟨h, h2⟩
    · rintro (h | ⟨h, _⟩)
      · exact le_of_lt h
      · exact le_of_eq h

theorem sorted_keyLex_imp_left {α β γ : Type} [LinearOrder β] [LinearOrder γ]
    (k1 : α → β) (k2 : α → γ) (l : List α) (h : List.Sorted (keyLex k1 k2) l) :
    List.Sorted (keyLE k1) l := by
  refine h.imp ?_
  rintro a b (h1 | ⟨h1, _⟩)
  · exact le_of_lt h1
  · exact le_of_eq h1

theorem insertionSort_ne_nil {α : Type} (r : α → α → Prop) [DecidableRel r]
    (l : List α) (hl : l ≠ []) : List.insertionSort r l ≠ [] := by
  intro h
  have hp := List.perm_insertionSort r l
  rw [h] at hp
  exact hl hp.nil_eq.symm

/-! ### Structure of `expand_df` -/

theorem expand_df_nil : expand_df [] = .error (.keyError "Subnet") := rfl

theorem expand_df_eq (df : List Row4) (hdf : df ≠ []) :
    expand_df df = .ok (List.insertionSort byCountry (dropDupKey ipOf []
      (List.insertionSort bySubnet (df.map generalize)))) := by
  have h1 : (df.map generalize).isEmpty = false := by
    rw [List.isEmpty_eq_false]
    simp only [ne_eq, List.map_eq_nil]
    exact hdf
  have h2 : (dropDupKey ipOf []
      (List.insertionSort bySubnet (df.map generalize))).isEmpty = false := by
    rw [List.isEmpty_eq_false]
    refine dropDupKey_ne_nil ipOf _ ?_
    refine insertionSort_ne_nil _ _ ?_
    simp only [ne_eq, List.map_eq_nil]
    exact hdf
  simp only [expand_df, sort_values, h1, Bool.false_eq_true, if_false, h2]

theorem generalize_subnet_ne (r : Row4) : (generalize r).subnet ≠ 32 := by
  unfold generalize
  split
  · simp
  · rename_i h; simpa using h

theorem generalize_id_of_ne (r : Row4) (h : r.subnet ≠ 32) : generalize r = r := by
  unfold generalize
  rw [if_neg h]

theorem generalize_idem (r : Row4) : generalize (generalize r) = generalize r :=
  generalize_id_of_ne _ (generalize_subnet_ne r)

theorem expand_df_ok_shape (df out : List Row4) (h : expand_df df = .ok out) :
    df ≠ [] ∧
      out = List.insertionSort byCountry
        (dropDupKey ipOf [] (List.insertionSort bySubnet (df.map generalize))) := by
  have hdf : df ≠ [] := by
    intro hnil
    subst hnil
    rw [expand_df_nil] at h
    cases h
  refine ⟨hdf, ?_⟩
  rw [expand_df_eq df hdf] at h
  cases h
  rfl

theorem dedup_stage_min_subnet (e : List Row4) (x : Row4)
    (hx : x ∈ dropDupKey ipOf [] (List.insertionSort bySubnet e)) :
    ∀ y ∈ e, ipOf y = ipOf x → x.subnet ≤ y.subnet := by
  intro y hy hkey
  have hfind := ((mem_dropDupKey_iff ipOf [] _ x).mp hx).2
  rw [find?_eq_filter_head] at hfind
  have hsortm : List.Sorted bySubnet (List.insertionSort bySubnet e) :=
    List.sorted_insertionSort _ _
  have hsortF : List.Sorted bySubnet
      ((List.insertionSort bySubnet e).filter (fun z => decide (ipOf z = ipOf x))) :=
    hsortm.filter _
  have hyM : y ∈ List.insertionSort bySubnet e := (List.mem_insertionSort _).mpr hy
  have hyF : y ∈ (List.insertionSort bySubnet e).filter
      (fun z => decide (ipOf z = ipOf x)) :=
    List.mem_filter.mpr ⟨hyM, by simp [hkey]⟩
  set F := (List.insertionSort bySubnet e).filter (fun z => decide (ipOf z = ipOf x))
    with hF0
  cases hF : F with
  | nil =>
    rw [hF] at hyF
    cases hyF
  | cons z rest =>
    rw [hF] at hfind
    have hz : z = x := by simpa using hfind
    subst hz
    rw [hF] at hyF hsortF
    rcases List.mem_cons.mp hyF with h | h
    · rw [h]
    · exact List.rel_of_sorted_cons hsortF y h

theorem dedup_stage_exists (e : List Row4) (a : Nat × Nat × Nat × Nat)
    (ha : a ∈ e.map ipOf) :
    ∃ x ∈ dropDupKey ipOf [] (List.insertionSort bySubnet e), ipOf x = a := by
  have hperm : List.Perm (List.insertionSort bySubnet e) e := List.perm_insertionSort _ _
  have ham : a ∈ (List.insertionSort bySubnet e).map ipOf :=
    ((hperm.map ipOf).mem_iff).mpr ha
  have hdd := dropDupKey_keys_mem ipOf [] (List.insertionSort bySubnet e) a ham
    (List.not_mem_nil a)
  obtain ⟨x, hx, hkx⟩ := List.mem_map.mp hdd
  exact ⟨x, hx, hkx⟩

theorem dedup_stage_unique (e : List Row4) (x y : Row4)
    (hx : x ∈ dropDupKey ipOf [] (List.insertionSort bySubnet e))
    (hy : y ∈ dropDupKey ipOf [] (List.insertionSort bySubnet e))
    (hkey : ipOf x = ipOf y) : x = y :=
  map_key_nodup_inj ipOf _ (dropDupKey_keys_nodup ipOf [] _) x hx y hy hkey

theorem dedup_stage_first (e : List Row4) (x : Row4)
    (hx : x ∈ dropDupKey ipOf [] (List.insertionSort bySubnet e)) :
    e.find? (fun y => decide (ipOf y = ipOf x ∧ y.subnet = x.subnet)) = some x := by
  have hfind := ((mem_dropDupKey_iff ipOf [] _ x).mp hx).2
  rw [find?_eq_filter_head] at hfind
  rw [find?_eq_filter_head]
  have hqp : ∀ l : List Row4,
      l.filter (fun y => decide (ipOf y = ipOf x ∧ y.subnet = x.subnet)) =
        (l.filter (fun y => decide (ipOf y = ipOf x))).filter
          (fun y => decide (y.subnet = x.subnet)) := by
    intro l
    rw [List.filter_filter]
    refine filter_ext _ _ ?_ l
    intro y
    rw [Bool.and_comm, ← Bool.decide_and]
  have hqs : ∀ l : List Row4,
      l.filter (fun y => decide (ipOf y = ipOf x ∧ y.subnet = x.subnet)) =
        (l.filter (fun y => decide (y.subnet = x.subnet))).filter
          (fun y => decide (ipOf y = ipOf x)) := by
    intro l
    rw [List.filter_filter]
    refine filter_ext _ _ ?_ l
    intro y
    rw [← Bool.decide_and]
  have hstab : (List.insertionSort bySubnet e).filter
      (fun y => decide (ipOf y = ipOf x ∧ y.subnet = x.subnet)) =
        e.filter (fun y => decide (ipOf y = ipOf x ∧ y.subnet = x.subnet)) := by
    rw [hqs, hqs e,
      filter_insertionSort_class Row4.subnet (fun y => decide (y.subnet = x.subnet))
        (fun u v hu hv => (of_decide_eq_true hu).trans (of_decide_eq_true hv).symm) e]
  rw [← hstab, hqp]
  set F := (List.insertionSort bySubnet e).filter (fun z => decide (ipOf z = ipOf x))
    with hF0
  cases hF : F with
  | nil =>
    rw [hF] at hfind
    simp at hfind
  | cons z rest =>
    rw [hF] at hfind
    have hz : z = x := by simpa using hfind
    subst hz
    rw [List.filter_cons_of_pos (by simp)]
    rfl

theorem map_eq_self_of {α : Type} (f : α → α) :
    ∀ l : List α, (∀ x ∈ l, f x = x) → l.map f = l := by
  intro l
  induction l with
  | nil => intro _; rfl
  | cons a t ih =>
    intro h
    rw [List.map_cons, h a (List.mem_cons_self _ _),
      ih (fun x hx => h x (List.mem_cons_of_mem _ hx))]

theorem expand_out_sorted_lex (df out : List Row4) (h : expand_df df = .ok out) :
    List.Sorted (keyLex Row4.country Row4.subnet) out := by
  obtain ⟨hdf, hout⟩ := expand_df_ok_shape df out h
  have hddsort : List.Sorted bySubnet (dropDupKey ipOf []
      (List.insertionSort bySubnet (df.map generalize))) := by
    have hs := List.sorted_insertionSort bySubnet (df.map generalize)
    exact List.Pairwise.sublist (dropDupKey_sublist ipOf [] _) hs
  rw [hout, insertionSort_keyLE_eq_keyLex Row4.country Row4.subnet _ hddsort]
  exact List.sorted_insertionSort _ _

theorem subnet_fiber_filter_eq (out : List Row4)
    (hlex : List.Sorted (keyLex Row4.country Row4.subnet) out) (p : Row4 → Bool)
    (hp : ∀ x y, p x = true → p y = true → x.country = y.country) :
    (List.insertionSort bySubnet out).filter p = out.filter p := by
  refine sorted_eq_of_fibers_eq Row4.subnet _ _ ?_ ?_ ?_
  · exact (List.sorted_insertionSort bySubnet out).filter _
  · refine List.Pairwise.imp_of_mem ?_ (hlex.filter _)
    intro a b ha hb hab
    have hck : a.country = b.country :=
      hp a b (List.mem_filter.mp ha).2 (List.mem_filter.mp hb).2
    rcases hab with h1 | ⟨_, h2⟩
    · exact absurd hck (ne_of_lt h1)
    · exact h2
  · intro j q hq
    have hqc : ∀ x y, q x = true → q y = true → x.subnet = y.subnet :=
      fun x y hx hy => ((hq x).mp hx).trans ((hq y).mp hy).symm
    rw [filter_comm_decide,
      filter_insertionSort_class Row4.subnet q hqc out, ← filter_comm_decide]

theorem country_sort_of_subnet_sort (out : List Row4)
    (hlex : List.Sorted (keyLex Row4.country Row4.subnet) out) :
    List.insertionSort byCountry (List.insertionSort bySubnet out) = out := by
  refine sorted_eq_of_fibers_eq Row4.country _ _ ?_ ?_ ?_
  · exact List.sorted_insertionSort byCountry _
  · exact sorted_keyLex_imp_left Row4.country Row4.subnet out hlex
  · intro k p hp
    have hpc : ∀ x y, p x = true → p y = true → x.country = y.country :=
      fun x y hx hy => ((hp x).mp hx).trans ((hp y).mp hy).symm
    rw [filter_insertionSort_class Row4.country p hpc]
    exact subnet_fiber_filter_eq out hlex p hpc

/-! ### Helper lemmas on `drop_duplicates`, `fillOpts` and `runMain` -/

theorem drop_duplicates_sublist {α : Type} [DecidableEq α] (l : List α) :
    List.Sublist (drop_duplicates l) l :=
  dropDupKey_sublist id [] l

theorem mem_drop_duplicates {α : Type} [DecidableEq α] (l : List α) (x : α) :
    x ∈ drop_duplicates l ↔ x ∈ l := by
  constructor
  · intro h
    exact (drop_duplicates_sublist l).subset h
  · intro h
    have hm := dropDupKey_keys_mem id [] l x (by simpa using h) (List.not_mem_nil x)
    simpa using hm

theorem drop_duplicates_nodup {α : Type} [DecidableEq α] (l : List α) :
    (drop_duplicates l).Nodup := by
  have h := dropDupKey_keys_nodup id [] l
  simpa using h

theorem aggCountry4_fillOpts (acc : List Row4) (c : CountrySources) :
    aggCountry4 acc (fillOpts c) = aggCountry4 acc c := by
  unfold aggCountry4 fillOpts optConcat
  cases c.as4 <;> cases c.man4 <;> simp

theorem aggCountry6_fillOpts (acc : List NetRow) (c : CountrySources) :
    aggCountry6 acc (fillOpts c) = aggCountry6 acc c := by
  unfold aggCountry6 fillOpts optConcat
  cases c.as6 <;> cases c.man6 <;> simp

theorem foldl_agg4_fillOpts :
    ∀ (cs : List CountrySources) (acc : List Row4),
      (cs.map fillOpts).foldl aggCountry4 acc = cs.foldl aggCountry4 acc := by
  intro cs
  induction cs with
  | nil => intro acc; rfl
  | cons c t ih =>
    intro acc
    rw [List.map_cons, List.foldl_cons, List.foldl_cons, aggCountry4_fillOpts]
    exact ih _

theorem foldl_agg6_fillOpts :
    ∀ (cs : List CountrySources) (acc : List NetRow),
      (cs.map fillOpts).foldl aggCountry6 acc = cs.foldl aggCountry6 acc := by
  intro cs
  induction cs with
  | nil => intro acc; rfl
  | cons c t ih =>
    intro acc
    rw [List.map_cons, List.foldl_cons, List.foldl_cons, aggCountry6_fillOpts]
    exact ih _

theorem runMain_fillOpts (cs : List CountrySources) :
    runMain true (cs.map fillOpts) = runMain true cs := by
  unfold runMain
  rw [foldl_agg4_fillOpts, foldl_agg6_fillOpts]

theorem runMain_true_ok (cs : List CountrySources) (res : RunResult)
    (h : runMain true cs = .ok res) :
    ∃ e4, expand_df (drop_duplicates (cs.foldl aggCountry4 [])) = .ok e4 ∧
      res = ⟨0, true, some ("Network,Country" :: (e4.map csvLine4 ++
        (drop_duplicates (cs.foldl aggCountry6 [])).map csvLine6))⟩ := by
  unfold runMain at h
  rw [if_pos rfl] at h
  cases hexp : expand_df (drop_duplicates (cs.foldl aggCountry4 [])) with
  | error e =>
    rw [hexp] at h
    cases h
  | ok e4 =>
    rw [hexp] at h
    cases h
    exact ⟨e4, rfl, rfl⟩

/-! ### Lemmas about the nondeterministic sort model -/

theorem perm_pair {α : Type} (a b : α) (hab : a ≠ b) :
    ∀ l : List α, List.Perm l [a, b] → l = [a, b] ∨ l = [b, a] := by
  intro l h
  have hlen : l.length = 2 := by simpa using h.length_eq
  cases l with
  | nil => simp at hlen
  | cons x t =>
    cases t with
    | nil => simp at hlen
    | cons y t2 =>
      cases t2 with
      | cons z t3 => simp at hlen
      | nil =>
        have ha : a ∈ [x, y] := h.mem_iff.mpr (by simp)
        have hb : b ∈ [x, y] := h.mem_iff.mpr (by simp)
        simp only [List.mem_cons, List.not_mem_nil, or_false] at ha hb
        rcases ha with ha | ha <;> rcases hb with hb | hb
        · exact absurd (ha.trans hb.symm) hab
        · left; rw [← ha, ← hb]
        · right; rw [← ha, ← hb]
        · exact absurd (ha.trans hb.symm) hab

theorem expand_df_ok_rel (df out : List Row4) (h : expand_df df = .ok out) :
    ExpandResult df out := by
  obtain ⟨hdf, hout⟩ := expand_df_ok_shape df out h
  refine ⟨hdf, List.insertionSort bySubnet (df.map generalize),
    ⟨List.perm_insertionSort _ _, List.sorted_insertionSort _ _⟩, ?_, ?_⟩
  · rw [hout]; exact List.perm_insertionSort _ _
  · rw [hout]; exact List.sorted_insertionSort _ _

theorem dedup_sorted_min_subnet (e m : List Row4) (hpm : List.Perm m e)
    (hs : List.Sorted bySubnet m) (x : Row4)
    (hx : x ∈ dropDupKey ipOf [] m) :
    ∀ y ∈ e, ipOf y = ipOf x → x.subnet ≤ y.subnet := by
  intro y hy hkey
  have hfind := ((mem_dropDupKey_iff ipOf [] _ x).mp hx).2
  rw [find?_eq_filter_head] at hfind
  have hsortF : List.Sorted bySubnet
      (m.filter (fun z => decide (ipOf z = ipOf x))) :=
    hs.filter _
  have hyM : y ∈ m := hpm.mem_iff.mpr hy
  have hyF : y ∈ m.filter (fun z => decide (ipOf z = ipOf x)) :=
    List.mem_filter.mpr ⟨hyM, by simp [hkey]⟩
  set F := m.filter (fun z => decide (ipOf z = ipOf x)) with hF0
  cases hF : F with
  | nil =>
    rw [hF] at hyF
    cases hyF
  | cons z rest =>
    rw [hF] at hfind
    have hz : z = x := by simpa using hfind
    subst hz
    rw [hF] at hyF hsortF
    rcases List.mem_cons.mp hyF with h | h
    · rw [h]
    · exact List.rel_of_sorted_cons hsortF y h

/-! ### Claims -/

/-- C1: for a valid pair of start and end addresses of the same `w`-bit family
with start ≤ end, `convert_iprange_to_cidr` emits per input row exactly the
blocks of `summarize`; those blocks are ordered and pairwise non-overlapping,
their union is exactly the inclusive range `[start, end]` with no block
reaching outside it, and each emitted block is the largest
power-of-two-aligned block starting at the current lower bound that does not
exceed the remaining range. -/
theorem C1_range_to_cidr (ipv6 : Bool) (w : Nat) (row : RangeRow)
    (hw : w = if ipv6 then 128 else 32)
    (h1 : row.range_start ≤ row.range_end) (h2 : row.range_end < 2 ^ w) :
    (∀ df : List RangeRow, convert_iprange_to_cidr df ipv6 =
      df.flatMap (fun r => (blocksFor ipv6 r).map (fun bp => ⟨bp.1, bp.2, r.country⟩))) ∧
    (∀ a, (∃ bp ∈ blocksFor ipv6 row,
        bp.1 ≤ a ∧ a ≤ bp.1 + (2 ^ (w - bp.2) - 1)) ↔
      (row.range_start ≤ a ∧ a ≤ row.range_end)) ∧
    (blocksFor ipv6 row).Pairwise
      (fun bp cq => bp.1 + (2 ^ (w - bp.2) - 1) < cq.1) ∧
    (∀ f, f ≤ row.range_end →
      summarize w f row.range_end = (f, w - nbitsFor w f row.range_end) ::
        summarize w (f + 2 ^ nbitsFor w f row.range_end) row.range_end ∧
      IsGreatest {k | 2 ^ k ∣ f ∧ f + (2 ^ k - 1) ≤ row.range_end}
        (nbitsFor w f row.range_end)) := by
  subst hw
  refine ⟨fun df => rfl, ?_, ?_, ?_⟩
  · intro a
    exact summarize_covers _ _ h2 _ a
  · exact summarize_pairwise _ _ h2 _
  · intro f hf
    refine ⟨summarize_cons _ f _ hf, ⟨?_, ?_⟩, ?_⟩
    · exact pow_nbitsFor_dvd _ f _
    · have := pow_nbitsFor_le (if ipv6 then 128 else 32) f row.range_end hf
      omega
    · intro k hk
      exact nbitsFor_greatest _ f _ k hf h2 hk.1 hk.2

/-- Witness for C1: the theorem applied to the IPv4 row with range 0–3. -/
theorem C1_witness :
    ((32 : Nat) = if false then 128 else 32) ∧ (0 : Nat) ≤ 3 ∧ (3 : Nat) < 2 ^ 32 ∧
    ((∀ df : List RangeRow, convert_iprange_to_cidr df false =
      df.flatMap (fun r => (blocksFor false r).map (fun bp => ⟨bp.1, bp.2, r.country⟩))) ∧
    (∀ a, (∃ bp ∈ blocksFor false ⟨0, 3, "IR"⟩,
        bp.1 ≤ a ∧ a ≤ bp.1 + (2 ^ (32 - bp.2) - 1)) ↔ (0 ≤ a ∧ a ≤ 3)) ∧
    (blocksFor false ⟨0, 3, "IR"⟩).Pairwise
      (fun bp cq => bp.1 + (2 ^ (32 - bp.2) - 1) < cq.1) ∧
    (∀ f, f ≤ 3 →
      summarize 32 f 3 = (f, 32 - nbitsFor 32 f 3) ::
        summarize 32 (f + 2 ^ nbitsFor 32 f 3) 3 ∧
      IsGreatest {k | 2 ^ k ∣ f ∧ f + (2 ^ k - 1) ≤ 3} (nbitsFor 32 f 3))) :=
  ⟨by decide, by decide, by decide,
    C1_range_to_cidr false 32 ⟨0, 3, "IR"⟩ (by decide) (by decide) (by decide)⟩

/-- Counterexample for C2: two generalized entries can share both the base
address and the minimum prefix-length (a tie).  `sort_values` — pandas'
default unstable quicksort — may order the tied rows either way, so the
program may keep the second-encountered tied entry instead of the first:
both singleton outputs below are admissible runs on the same two-row frame,
and the second one violates the claimed first-encountered tie-break. -/
theorem C2_cex :
    ExpandResult [⟨9, 9, 9, 9, 24, "IR"⟩, ⟨9, 9, 9, 9, 24, "CN"⟩]
      [⟨9, 9, 9, 9, 24, "IR"⟩] ∧
    ExpandResult [⟨9, 9, 9, 9, 24, "IR"⟩, ⟨9, 9, 9, 9, 24, "CN"⟩]
      [⟨9, 9, 9, 9, 24, "CN"⟩] ∧
    ¬ (∀ out, ExpandResult [⟨9, 9, 9, 9, 24, "IR"⟩, ⟨9, 9, 9, 9, 24, "CN"⟩] out →
        ∀ x ∈ out, (([⟨9, 9, 9, 9, 24, "IR"⟩, ⟨9, 9, 9, 9, 24, "CN"⟩] :
            List Row4).map generalize).find?
          (fun y => decide (ipOf y = ipOf x ∧ y.subnet = x.subnet)) = some x) := by
  have hB : ExpandResult [⟨9, 9, 9, 9, 24, "IR"⟩, ⟨9, 9, 9, 9, 24, "CN"⟩]
      [⟨9, 9, 9, 9, 24, "CN"⟩] := by
    refine ⟨by simp, [⟨9, 9, 9, 9, 24, "CN"⟩, ⟨9, 9, 9, 9, 24, "IR"⟩],
      ⟨List.Perm.swap _ _ _, by decide⟩, ?_, by decide⟩
    exact List.Perm.refl _
  refine ⟨expand_df_ok_rel _ _ rfl, hB, ?_⟩
  intro hclaim
  have h := hclaim _ hB ⟨9, 9, 9, 9, 24, "CN"⟩ (by simp)
  exact absurd h (by decide)

/-- C2 (amended): after generalization the entries are sorted by ascending
prefix-length and only the first occurrence per base address in that sorted
order is kept, so exactly one entry survives per distinct base address and
it carries the minimum prefix-length among the aggregated entries for that
address; but because `sort_values` uses an unstable sort, a tie on the
minimum prefix-length is broken arbitrarily — the survivor is some
aggregated entry achieving the minimum, not necessarily the first
encountered.  The inputs "198.51.100.0/24" and "198.51.100.0/28" still
collapse to keep only "198.51.100.0/24", in every admissible run. -/
theorem C2_dedup_least_specific_arbitrary_ties (df out : List Row4)
    (h : ExpandResult df out) :
    (∀ a, a ∈ (df.map generalize).map ipOf → ∃! x, x ∈ out ∧ ipOf x = a) ∧
    (∀ x ∈ out, ∀ y ∈ df.map generalize, ipOf y = ipOf x → x.subnet ≤ y.subnet) ∧
    (∀ x ∈ out, x ∈ df.map generalize) ∧
    (∀ out', ExpandResult [⟨198, 51, 100, 0, 24, "IR"⟩, ⟨198, 51, 100, 0, 28, "IR"⟩]
        out' → out' = [⟨198, 51, 100, 0, 24, "IR"⟩]) := by
  obtain ⟨hdne, m, ⟨hpm, hsm⟩, ⟨hop, hos⟩⟩ := h
  have hmem : ∀ x, x ∈ out ↔ x ∈ dropDupKey ipOf [] m := fun x => hop.mem_iff
  refine ⟨?_, ?_, ?_, ?_⟩
  · intro a ha
    have ham : a ∈ m.map ipOf := ((hpm.map ipOf).mem_iff).mpr ha
    have hdd := dropDupKey_keys_mem ipOf [] m a ham (List.not_mem_nil a)
    obtain ⟨x, hx, hkx⟩ := List.mem_map.mp hdd
    refine ⟨x, ⟨(hmem x).mpr hx, hkx⟩, ?_⟩
    rintro y ⟨hy, hky⟩
    exact map_key_nodup_inj ipOf _ (dropDupKey_keys_nodup ipOf [] m) y
      ((hmem y).mp hy) x hx (by rw [hky, hkx])
  · intro x hx y hy hk
    exact dedup_sorted_min_subnet (df.map generalize) m hpm hsm x
      ((hmem x).mp hx) y hy hk
  · intro x hx
    exact hpm.mem_iff.mp ((dropDupKey_sublist ipOf [] m).subset ((hmem x).mp hx))
  · intro out' h'
    obtain ⟨_, m', ⟨hp', hs'⟩, ⟨hop', _⟩⟩ := h'
    have hmap : (([⟨198, 51, 100, 0, 24, "IR"⟩, ⟨198, 51, 100, 0, 28, "IR"⟩] :
        List Row4).map generalize) =
        [⟨198, 51, 100, 0, 24, "IR"⟩, ⟨198, 51, 100, 0, 28, "IR"⟩] := rfl
    rw [hmap] at hp'
    rcases perm_pair _ _ (by decide) m' hp' with hm | hm
    · have hddc : dropDupKey ipOf [] [(⟨198, 51, 100, 0, 24, "IR"⟩ : Row4),
          ⟨198, 51, 100, 0, 28, "IR"⟩] = [⟨198, 51, 100, 0, 24, "IR"⟩] := rfl
      rw [hm, hddc] at hop'
      exact List.perm_singleton.mp hop'
    · rw [hm] at hs'
      have h28 := List.rel_of_sorted_cons hs' ⟨198, 51, 100, 0, 24, "IR"⟩ (by simp)
      exact absurd h28 (by decide)

/-- Witness for C2 (amended): the theorem applied to an admissible run on
the "198.51.100.0" two-row frame. -/
theorem C2_witness :
    ExpandResult [⟨198, 51, 100, 0, 24, "IR"⟩, ⟨198, 51, 100, 0, 28, "IR"⟩]
      [⟨198, 51, 100, 0, 24, "IR"⟩] ∧
    (∀ a, a ∈ (([⟨198, 51, 100, 0, 24, "IR"⟩, ⟨198, 51, 100, 0, 28, "IR"⟩] :
        List Row4).map generalize).map ipOf →
      ∃! x, x ∈ ([⟨198, 51, 100, 0, 24, "IR"⟩] : List Row4) ∧ ipOf x = a) :=
  ⟨expand_df_ok_rel [⟨198, 51, 100, 0, 24, "IR"⟩, ⟨198, 51, 100, 0, 28, "IR"⟩]
      [⟨198, 51, 100, 0, 24, "IR"⟩] rfl,
    (C2_dedup_least_specific_arbitrary_ties
      [⟨198, 51, 100, 0, 24, "IR"⟩, ⟨198, 51, 100, 0, 28, "IR"⟩]
      [⟨198, 51, 100, 0, 24, "IR"⟩]
      (expand_df_ok_rel [⟨198, 51, 100, 0, 24, "IR"⟩, ⟨198, 51, 100, 0, 28, "IR"⟩]
        [⟨198, 51, 100, 0, 24, "IR"⟩] rfl)).1⟩

/-- C3: the generalization step rewrites every IPv4 entry of prefix-length 32
to its enclosing /24 by zeroing the fourth octet, keeping the country, and
leaves entries of any other prefix-length unchanged; "203.0.113.5/32" becomes
"203.0.113.0/24" for any country. -/
theorem C3_generalize_host_entries (r : Row4) :
    (r.subnet = 32 → generalize r =
      { o1 := r.o1, o2 := r.o2, o3 := r.o3, o4 := 0, subnet := 24,
        country := r.country }) ∧
    (r.subnet ≠ 32 → generalize r = r) ∧
    (∀ c : String, expand_df [⟨203, 0, 113, 5, 32, c⟩] =
      .ok [⟨203, 0, 113, 0, 24, c⟩]) := by
  refine ⟨?_, ?_, ?_⟩
  · intro h
    unfold generalize
    rw [if_pos h]
  · intro h
    unfold generalize
    rw [if_neg h]
  · intro c
    rw [expand_df_eq _ (by simp)]
    simp [generalize, dropDupKey, List.insertionSort, List.orderedInsert]

/-- Witness for C3: the theorem applied to the row "203.0.113.5/32". -/
theorem C3_witness :
    (203, 0, 113, 5, 32, "IR") ≠ (0, 0, 0, 0, 0, "") ∧
    generalize ⟨203, 0, 113, 5, 32, "IR"⟩ = ⟨203, 0, 113, 0, 24, "IR"⟩ ∧
    expand_df [⟨203, 0, 113, 5, 32, "IR"⟩] = .ok [⟨203, 0, 113, 0, 24, "IR"⟩] :=
  ⟨by decide, (C3_generalize_host_entries ⟨203, 0, 113, 5, 32, "IR"⟩).1 rfl,
    (C3_generalize_host_entries ⟨203, 0, 113, 5, 32, "IR"⟩).2.2 "IR"⟩

/-- Counterexample for C4: the script applies `drop_duplicates` to the IPv6
frame (line 312), so an IPv6 row aggregated twice is written only once,
contradicting "the raw IPv6 set exactly as aggregated, with no deduplication
ever applied". -/
theorem C4_cex :
    runMain true [⟨"IR", [⟨1, 2, 3, 4, 24, "IR"⟩], [], none, none, [],
        [⟨"2001:db8::/32", "IR"⟩, ⟨"2001:db8::/32", "IR"⟩], [], none, none⟩] =
      .ok ⟨0, true, some ["Network,Country", "1.2.3.4/24,IR", "2001:db8::/32,IR"]⟩ ∧
    (["Network,Country", "1.2.3.4/24,IR", "2001:db8::/32,IR"] : List String) ≠
      "Network,Country" :: (([⟨1, 2, 3, 4, 24, "IR"⟩] : List Row4).map csvLine4 ++
        ([⟨"2001:db8::/32", "IR"⟩, ⟨"2001:db8::/32", "IR"⟩] : List NetRow).map csvLine6) :=
  ⟨rfl, by decide⟩

/-- C4 (amended): the Writer concatenates the expanded IPv4 set with the
aggregated IPv6 set after exact-duplicate removal only — each surviving IPv6
row appears verbatim (the survivors are a duplicate-free sublist of the
aggregate containing every aggregated row), with no generalization or
conflict resolution — in column order Network, Country, as CSV lines with a
header row and no index column. -/
theorem C4_writer_output (cs : List CountrySources) (res : RunResult)
    (h : runMain true cs = .ok res) :
    ∃ e4, expand_df (drop_duplicates (cs.foldl aggCountry4 [])) = .ok e4 ∧
      res.output = some ("Network,Country" :: (e4.map csvLine4 ++
        (drop_duplicates (cs.foldl aggCountry6 [])).map csvLine6)) ∧
      List.Sublist (drop_duplicates (cs.foldl aggCountry6 []))
        (cs.foldl aggCountry6 []) ∧
      (∀ x ∈ cs.foldl aggCountry6 [], x ∈ drop_duplicates (cs.foldl aggCountry6 [])) ∧
      (drop_duplicates (cs.foldl aggCountry6 [])).Nodup ∧
      (∀ r : Row4, csvLine4 r = net4String r ++ "," ++ r.country) ∧
      (∀ r : NetRow, csvLine6 r = r.network ++ "," ++ r.country) := by
  obtain ⟨e4, hexp, hres⟩ := runMain_true_ok cs res h
  refine ⟨e4, hexp, ?_, drop_duplicates_sublist _, ?_, drop_duplicates_nodup _,
    fun r => rfl, fun r => rfl⟩
  · rw [hres]
  · intro x hx
    exact (mem_drop_duplicates _ x).mpr hx

/-- Witness for C4 (amended): the theorem applied to a one-country run. -/
theorem C4_witness :
    runMain true [⟨"IR", [⟨5, 6, 7, 8, 16, "IR"⟩], [], none, none, [],
        [⟨"2001:db8::/48", "IR"⟩], [], none, none⟩] =
      .ok ⟨0, true, some ["Network,Country", "5.6.7.8/16,IR", "2001:db8::/48,IR"]⟩ ∧
    (∃ e4, expand_df (drop_duplicates
        (([⟨"IR", [⟨5, 6, 7, 8, 16, "IR"⟩], [], none, none, [],
          [⟨"2001:db8::/48", "IR"⟩], [], none, none⟩] :
            List CountrySources).foldl aggCountry4 [])) = .ok e4 ∧
      (⟨0, true, some ["Network,Country", "5.6.7.8/16,IR", "2001:db8::/48,IR"]⟩ :
          RunResult).output = some ("Network,Country" :: (e4.map csvLine4 ++
        (drop_duplicates (([⟨"IR", [⟨5, 6, 7, 8, 16, "IR"⟩], [], none, none, [],
          [⟨"2001:db8::/48", "IR"⟩], [], none, none⟩] :
            List CountrySources).foldl aggCountry6 [])).map csvLine6)) ∧
      List.Sublist (drop_duplicates (([⟨"IR", [⟨5, 6, 7, 8, 16, "IR"⟩], [], none, none, [],
          [⟨"2001:db8::/48", "IR"⟩], [], none, none⟩] :
            List CountrySources).foldl aggCountry6 []))
        (([⟨"IR", [⟨5, 6, 7, 8, 16, "IR"⟩], [], none, none, [],
          [⟨"2001:db8::/48", "IR"⟩], [], none, none⟩] :
            List CountrySources).foldl aggCountry6 []) ∧
      (∀ x ∈ ([⟨"IR", [⟨5, 6, 7, 8, 16, "IR"⟩], [], none, none, [],
          [⟨"2001:db8::/48", "IR"⟩], [], none, none⟩] :
            List CountrySources).foldl aggCountry6 [],
        x ∈ drop_duplicates (([⟨"IR", [⟨5, 6, 7, 8, 16, "IR"⟩], [], none, none, [],
          [⟨"2001:db8::/48", "IR"⟩], [], none, none⟩] :
            List CountrySources).foldl aggCountry6 [])) ∧
      (drop_duplicates (([⟨"IR", [⟨5, 6, 7, 8, 16, "IR"⟩], [], none, none, [],
          [⟨"2001:db8::/48", "IR"⟩], [], none, none⟩] :
            List CountrySources).foldl aggCountry6 [])).Nodup ∧
      (∀ r : Row4, csvLine4 r = net4String r ++ "," ++ r.country) ∧
      (∀ r : NetRow, csvLine6 r = r.network ++ "," ++ r.country)) :=
  ⟨rfl, C4_writer_output _ _ rfl⟩

/-- Counterexample for C5: two surviving rows tied on both sort keys (equal
subnet, equal country, distinct addresses) may be reordered by a second
pass, because the unstable sorts guarantee no tie order: on the two-row
frame below, one admissible first output is the frame itself and one
admissible second output is its reversal, so "applying expand_df to
expand_df(d) yields exactly the same output (same rows, same order)" fails. -/
theorem C5_cex :
    ExpandResult [⟨1, 1, 1, 1, 24, "IR"⟩, ⟨2, 2, 2, 2, 24, "IR"⟩]
      [⟨1, 1, 1, 1, 24, "IR"⟩, ⟨2, 2, 2, 2, 24, "IR"⟩] ∧
    ExpandResult [⟨1, 1, 1, 1, 24, "IR"⟩, ⟨2, 2, 2, 2, 24, "IR"⟩]
      [⟨2, 2, 2, 2, 24, "IR"⟩, ⟨1, 1, 1, 1, 24, "IR"⟩] ∧
    ([⟨2, 2, 2, 2, 24, "IR"⟩, ⟨1, 1, 1, 1, 24, "IR"⟩] : List Row4) ≠
      [⟨1, 1, 1, 1, 24, "IR"⟩, ⟨2, 2, 2, 2, 24, "IR"⟩] ∧
    ¬ (∀ d o1 o2 : List Row4, ExpandResult d o1 → ExpandResult o1 o2 → o2 = o1) := by
  have hsc : ∀ x y : Row4, x.country = "IR" → y.country = "IR" →
      List.Sorted byCountry [x, y] := by
    intro x y hx hy
    refine List.sorted_cons.mpr ⟨?_, List.sorted_singleton _⟩
    intro b hb
    simp only [List.mem_singleton] at hb
    subst hb
    show x.country ≤ b.country
    rw [hx, hy]
  have h1 : ExpandResult [⟨1, 1, 1, 1, 24, "IR"⟩, ⟨2, 2, 2, 2, 24, "IR"⟩]
      [⟨1, 1, 1, 1, 24, "IR"⟩, ⟨2, 2, 2, 2, 24, "IR"⟩] := by
    refine ⟨by simp, [⟨1, 1, 1, 1, 24, "IR"⟩, ⟨2, 2, 2, 2, 24, "IR"⟩],
      ⟨List.Perm.refl _, by decide⟩, List.Perm.refl _, hsc _ _ rfl rfl⟩
  have h2 : ExpandResult [⟨1, 1, 1, 1, 24, "IR"⟩, ⟨2, 2, 2, 2, 24, "IR"⟩]
      [⟨2, 2, 2, 2, 24, "IR"⟩, ⟨1, 1, 1, 1, 24, "IR"⟩] := by
    refine ⟨by simp, [⟨2, 2, 2, 2, 24, "IR"⟩, ⟨1, 1, 1, 1, 24, "IR"⟩],
      ⟨List.Perm.swap _ _ _, by decide⟩, List.Perm.refl _, hsc _ _ rfl rfl⟩
  refine ⟨h1, h2, by decide, ?_⟩
  intro hclaim
  have h := hclaim [⟨1, 1, 1, 1, 24, "IR"⟩, ⟨2, 2, 2, 2, 24, "IR"⟩]
    [⟨1, 1, 1, 1, 24, "IR"⟩, ⟨2, 2, 2, 2, 24, "IR"⟩]
    [⟨2, 2, 2, 2, 24, "IR"⟩, ⟨1, 1, 1, 1, 24, "IR"⟩] h1 h2
  exact absurd h (by decide)

/-- C5 (amended): the Deduplicator/Expander is idempotent up to the
unspecified tie order of the unstable sorts: whenever a second `expand_df`
pass is applied to an admissible output of a first pass, it cannot fail, it
returns exactly the same rows — a permutation of the first output — and its
result is again sorted by country; the order is not guaranteed to be
identical because rows tied on the sort keys may be permuted. -/
theorem C5_expand_df_idempotent_up_to_ties (d out out₂ : List Row4)
    (h1 : ExpandResult d out) (h2 : ExpandResult out out₂) :
    List.Perm out₂ out ∧ List.Sorted byCountry out₂ ∧
    ∃ o, expand_df out = .ok o ∧ ExpandResult out o := by
  obtain ⟨hne, m2, ⟨hp2, hs2⟩, ⟨hop2, hos2⟩⟩ := h2
  obtain ⟨hdne, m1, ⟨hp1, hs1⟩, ⟨hop1, hos1⟩⟩ := h1
  have hno32 : ∀ x ∈ out, generalize x = x := by
    intro x hx
    have hxd : x ∈ dropDupKey ipOf [] m1 := hop1.mem_iff.mp hx
    have hxm : x ∈ m1 := (dropDupKey_sublist ipOf [] m1).subset hxd
    have hxe : x ∈ d.map generalize := hp1.mem_iff.mp hxm
    obtain ⟨y, _, hy⟩ := List.mem_map.mp hxe
    rw [← hy]
    exact generalize_idem y
  have hmapgen : out.map generalize = out := map_eq_self_of _ _ hno32
  have hkn_out : (out.map ipOf).Nodup :=
    (hop1.map ipOf).nodup_iff.mpr (dropDupKey_keys_nodup ipOf [] m1)
  have hm2out : List.Perm m2 out := by
    rw [hmapgen] at hp2
    exact hp2
  have hkn_m2 : (m2.map ipOf).Nodup :=
    (hm2out.map ipOf).nodup_iff.mpr hkn_out
  have hdd2 : dropDupKey ipOf [] m2 = m2 :=
    dropDupKey_eq_self ipOf [] m2 hkn_m2 (fun x _ => List.not_mem_nil _)
  refine ⟨?_, hos2, ?_⟩
  · rw [hdd2] at hop2
    exact hop2.trans hm2out
  · exact ⟨_, expand_df_eq out hne, expand_df_ok_rel out _ (expand_df_eq out hne)⟩

/-- Witness for C5 (amended): the theorem applied to two admissible runs on
a frame whose host entry is generalized and deduplicated on the first pass. -/
theorem C5_witness :
    ExpandResult [⟨10, 0, 0, 5, 32, "IR"⟩, ⟨10, 0, 0, 0, 28, "CN"⟩]
      [⟨10, 0, 0, 0, 24, "IR"⟩] ∧
    ExpandResult [⟨10, 0, 0, 0, 24, "IR"⟩] [⟨10, 0, 0, 0, 24, "IR"⟩] ∧
    (List.Perm [(⟨10, 0, 0, 0, 24, "IR"⟩ : Row4)] [⟨10, 0, 0, 0, 24, "IR"⟩] ∧
      List.Sorted byCountry [⟨10, 0, 0, 0, 24, "IR"⟩] ∧
      ∃ o, expand_df [⟨10, 0, 0, 0, 24, "IR"⟩] = .ok o ∧
        ExpandResult [⟨10, 0, 0, 0, 24, "IR"⟩] o) :=
  ⟨expand_df_ok_rel [⟨10, 0, 0, 5, 32, "IR"⟩, ⟨10, 0, 0, 0, 28, "CN"⟩]
      [⟨10, 0, 0, 0, 24, "IR"⟩] rfl,
    expand_df_ok_rel [⟨10, 0, 0, 0, 24, "IR"⟩] [⟨10, 0, 0, 0, 24, "IR"⟩] rfl,
    C5_expand_df_idempotent_up_to_ties [⟨10, 0, 0, 5, 32, "IR"⟩, ⟨10, 0, 0, 0, 28, "CN"⟩]
      [⟨10, 0, 0, 0, 24, "IR"⟩] [⟨10, 0, 0, 0, 24, "IR"⟩]
      (expand_df_ok_rel [⟨10, 0, 0, 5, 32, "IR"⟩, ⟨10, 0, 0, 0, 28, "CN"⟩]
        [⟨10, 0, 0, 0, 24, "IR"⟩] rfl)
      (expand_df_ok_rel [⟨10, 0, 0, 0, 24, "IR"⟩] [⟨10, 0, 0, 0, 24, "IR"⟩] rfl)⟩

/-- C6: the geo-block adapter keeps a row iff both its `geoname_id` and its
`registered_country_geoname_id` equal the resolved identifier, and stamps the
requested ISO code on every kept row; a row with geoname_id 100 and
registered id 200 is excluded even when the target identifier is 100. -/
theorem C6_geo_filter (rows : List GeoBlockRow) (geoid : Nat) (iso : String) :
    (∀ nr, nr ∈ extract_geolite2_cidr rows geoid iso ↔
      ∃ r ∈ rows, r.geoname_id = some geoid ∧
        r.registered_country_geoname_id = some geoid ∧
        nr = ⟨r.network, iso⟩) ∧
    (∀ nr ∈ extract_geolite2_cidr rows geoid iso, nr.country = iso) ∧
    extract_geolite2_cidr [⟨"203.0.113.0/24", some 100, some 200, none, 0, 0⟩]
      100 "IR" = [] := by
  refine ⟨?_, ?_, rfl⟩
  · intro nr
    unfold extract_geolite2_cidr
    constructor
    · intro hnr
      obtain ⟨r, hr, hmap⟩ := List.mem_map.mp hnr
      obtain ⟨hrm, hcond⟩ := List.mem_filter.mp hr
      have hc := of_decide_eq_true hcond
      exact ⟨r, hrm, hc.1, hc.2, hmap.symm⟩
    · rintro ⟨r, hrm, h1, h2, hnr⟩
      refine List.mem_map.mpr ⟨r, ?_, hnr.symm⟩
      exact List.mem_filter.mpr ⟨hrm, decide_eq_true ⟨h1, h2⟩⟩
  · intro nr hnr
    obtain ⟨r, _, hmap⟩ := List.mem_map.mp hnr
    rw [← hmap]

/-- Witness for C6: a matching row is kept and stamped with the ISO code. -/
theorem C6_witness :
    ⟨"1.0.0.0/24", "IR"⟩ ∈ extract_geolite2_cidr
      [⟨"1.0.0.0/24", some 100, some 100, none, 0, 0⟩] 100 "IR" ∧
    extract_geolite2_cidr [⟨"203.0.113.0/24", some 100, some 200, none, 0, 0⟩]
      100 "IR" = [] :=
  ⟨((C6_geo_filter [⟨"1.0.0.0/24", some 100, some 100, none, 0, 0⟩] 100 "IR").1
      ⟨"1.0.0.0/24", "IR"⟩).mpr
      ⟨⟨"1.0.0.0/24", some 100, some 100, none, 0, 0⟩, by decide, rfl, rfl, rfl⟩,
    (C6_geo_filter [⟨"203.0.113.0/24", some 100, some 200, none, 0, 0⟩] 100 "IR").2.2⟩

/-- C7: an absent optional autonomous-system or manual per-country per-family
CSV behaves exactly like a present-but-empty one: it contributes an empty
record set, the per-country aggregates and the whole run are unchanged, and a
run with such an absent file completes successfully. -/
theorem C7_optional_sources_absent (acc4 : List Row4) (acc6 : List NetRow)
    (c : CountrySources) (cs : List CountrySources) :
    (∀ l : List Row4, optConcat l none = l) ∧
    aggCountry4 acc4 (fillOpts c) = aggCountry4 acc4 c ∧
    aggCountry6 acc6 (fillOpts c) = aggCountry6 acc6 c ∧
    runMain true (cs.map fillOpts) = runMain true cs ∧
    runMain true [⟨"IR", [⟨1, 2, 3, 4, 24, "IR"⟩], [], none, none, [],
        [], [], none, none⟩] =
      .ok ⟨0, true, some ["Network,Country", "1.2.3.4/24,IR"]⟩ :=
  ⟨fun l => rfl, aggCountry4_fillOpts acc4 c, aggCountry6_fillOpts acc6 c,
    runMain_fillOpts cs, rfl⟩

/-- Counterexample for C8: when the base data directory is missing, `main`
calls `exit(0)`, so the run signals the condition with exit code 0 — not a
nonzero-equivalent exit; exit code 0 is therefore not reserved for success. -/
theorem C8_cex :
    runMain false [] = .ok ⟨0, false, none⟩ ∧
    ¬ (∀ res, runMain false [] = .ok res → res.exitCode ≠ 0) := by
  refine ⟨rfl, ?_⟩
  intro hclaim
  exact hclaim ⟨0, false, none⟩ rfl rfl

/-- C8 (amended): if the base data directory is absent the program aborts
early — reading no source and writing no output file — but it exits with
code 0, the same exit code a successful run uses. -/
theorem C8_missing_dir_exits_zero (cs : List CountrySources) :
    runMain false cs = .ok ⟨0, false, none⟩ ∧
    (∀ res, runMain true cs = .ok res → res.exitCode = 0) := by
  refine ⟨rfl, ?_⟩
  intro res h
  obtain ⟨e4, _, hres⟩ := runMain_true_ok cs res h
  rw [hres]

/-- Witness for C8 (amended): a missing-directory run and a successful run,
both with exit code 0. -/
theorem C8_witness :
    runMain false [⟨"IR", [⟨1, 2, 3, 4, 24, "IR"⟩], [], none, none, [],
        [], [], none, none⟩] = .ok ⟨0, false, none⟩ ∧
    (⟨0, true, some ["Network,Country", "1.2.3.4/24,IR"]⟩ : RunResult).exitCode = 0 :=
  ⟨(C8_missing_dir_exits_zero [⟨"IR", [⟨1, 2, 3, 4, 24, "IR"⟩], [], none, none, [],
      [], [], none, none⟩]).1,
    (C8_missing_dir_exits_zero [⟨"IR", [⟨1, 2, 3, 4, 24, "IR"⟩], [], none, none, [],
      [], [], none, none⟩]).2 ⟨0, true, some ["Network,Country", "1.2.3.4/24,IR"]⟩ rfl⟩

/-- C9: conflict resolution keys on the base address alone, not on the
(address, country) pair: distinct surviving rows never share a base address,
the survivor's prefix-length is minimal among all generalized entries with
that address whatever their countries, and in the concrete two-country
collision only the /24 record survives while the other record's country
"CN" disappears from the output. -/
theorem C9_dedup_ignores_country (df out : List Row4) (h : expand_df df = .ok out) :
    (∀ x ∈ out, ∀ y ∈ out, ipOf x = ipOf y → x = y) ∧
    (∀ x ∈ out, ∀ y ∈ df.map generalize, ipOf y = ipOf x → x.subnet ≤ y.subnet) ∧
    expand_df [⟨198, 51, 100, 0, 24, "IR"⟩, ⟨198, 51, 100, 0, 28, "CN"⟩] =
      .ok [⟨198, 51, 100, 0, 24, "IR"⟩] ∧
    "CN" ∉ ([⟨198, 51, 100, 0, 24, "IR"⟩] : List Row4).map Row4.country := by
  obtain ⟨hdf, hout⟩ := expand_df_ok_shape df out h
  have hmem : ∀ x, x ∈ out ↔
      x ∈ dropDupKey ipOf [] (List.insertionSort bySubnet (df.map generalize)) := by
    intro x
    rw [hout]
    exact List.mem_insertionSort _
  refine ⟨?_, ?_, rfl, by decide⟩
  · intro x hx y hy hk
    exact dedup_stage_unique (df.map generalize) x y ((hmem x).mp hx)
      ((hmem y).mp hy) hk
  · intro x hx y hy hk
    exact dedup_stage_min_subnet (df.map generalize) x ((hmem x).mp hx) y hy hk

/-- Witness for C9: the theorem applied to the two-country collision. -/
theorem C9_witness :
    expand_df [⟨198, 51, 100, 0, 24, "IR"⟩, ⟨198, 51, 100, 0, 28, "CN"⟩] =
      .ok [⟨198, 51, 100, 0, 24, "IR"⟩] ∧
    (∀ x ∈ ([⟨198, 51, 100, 0, 24, "IR"⟩] : List Row4),
      ∀ y ∈ ([⟨198, 51, 100, 0, 24, "IR"⟩] : List Row4), ipOf x = ipOf y → x = y) :=
  ⟨rfl, (C9_dedup_ignores_country
    [⟨198, 51, 100, 0, 24, "IR"⟩, ⟨198, 51, 100, 0, 28, "CN"⟩]
    [⟨198, 51, 100, 0, 24, "IR"⟩] rfl).1⟩

/-- Counterexample for C10: `expand_df` on the empty IPv4 set does fail, but
at the Subnet sort of the intermediate frame rebuilt from the record list
(line 197), not at the Country sort of the reassembled result (line 205). -/
theorem C10_cex :
    expand_df [] = .error (.keyError "Subnet") ∧
    expand_df ([] : List Row4) ≠ .error (.keyError "Country") := by
  refine ⟨rfl, ?_⟩
  rw [expand_df_nil]
  intro hc
  simp at hc

/-- C10 (amended): when the aggregated IPv4 set is empty, `expand_df` fails —
with a KeyError on the Subnet column, raised when sorting the columnless
frame rebuilt from the empty record list — so a run in which no source
contributes an IPv4 record stops with that error and writes no output. -/
theorem C10_empty_ipv4_fails (cs : List CountrySources)
    (hempty : cs.foldl aggCountry4 [] = []) :
    expand_df ([] : List Row4) = .error (.keyError "Subnet") ∧
    runMain true cs = .error (.keyError "Subnet") := by
  refine ⟨rfl, ?_⟩
  unfold runMain
  rw [if_pos rfl, hempty]
  rfl

/-- Witness for C10 (amended): the empty run fails at the Subnet sort. -/
theorem C10_witness :
    ([] : List CountrySources).foldl aggCountry4 [] = [] ∧
    runMain true [] = .error (.keyError "Subnet") :=
  ⟨rfl, (C10_empty_ipv4_fails [] rfl).2⟩
